import Mathlib

/-!
Verification development for the llm-home-assistant request-orchestration
pipeline (`call_model.py` and the OpenAI planner parsers).

Modelling conventions:
* Python dicts are modelled as association lists with unique keys; the
  operations below preserve that invariant exactly as the source does.
* Python sets are modelled as lists compared and combined up to membership,
  which is the only way the source uses them.
* Action `data` values are modelled by a flat JSON value grammar (null, bool,
  integer, string, list of strings); this covers every value the pipeline
  itself constructs (in particular the `entity_id` values inserted by
  `setdefault`) and is the grammar over which all theorems are stated.
* `time.monotonic()` timestamps are modelled as integers; nothing in the
  claims depends on fractional time.
-/

namespace HA

/-- Flat JSON values used in an Action `data` mapping. -/
inductive JVal where
  | null
  | jbool (b : Bool)
  | jnum (n : Int)
  | jstr (s : String)
  | jstrs (l : List String)
  deriving Repr, DecidableEq

/-- A Python dict with string keys, as an ordered association list. -/
abbrev JObj := List (String × JVal)

/-- JSON string escaping as performed by json.dumps (quote and backslash). -/
def escape_json (s : String) : String :=
  s.foldl (fun acc c =>
    if c = '"' then acc ++ "\\\"" else if c = '\\' then acc ++ "\\\\" else acc.push c) ""

def quote_json (s : String) : String :=
  "\"" ++ escape_json s ++ "\""

/-- Stable insertion of one key-value pair into a key-sorted list. -/
def insert_by_key (p : String × JVal) : List (String × JVal) → List (String × JVal)
  | [] => [p]
  | q :: qs => if q.1 ≤ p.1 then q :: insert_by_key p qs else p :: q :: qs

/-- Stable sort of a dict by key, modelling sort_keys=True. -/
def sort_by_key (o : List (String × JVal)) : List (String × JVal) :=
  o.foldr insert_by_key []

/-- Serialization of one flat JSON value, as json.dumps renders it. -/
def dumps_val : JVal → String
  | .null => "null"
  | .jbool true => "true"
  | .jbool false => "false"
  | .jnum n => toString n
  | .jstr s => quote_json s
  | .jstrs l => "[" ++ ", ".intercalate (l.map quote_json) ++ "]"

/-- json.dumps(d, sort_keys=True) for a flat dict, with default separators. -/
def dumps_obj (o : JObj) : String :=
  "\x7b" ++ ", ".intercalate ((sort_by_key o).map
    (fun p => quote_json p.1 ++ ": " ++ dumps_val p.2)) ++ "\x7d"

/-- An action target: a single entity id string or a list of ids. -/
inductive EntityRef where
  | scalar (s : String)
  | listOf (l : List String)
  deriving Repr, DecidableEq

/-- One proposed device operation, as the dicts handled by call_model.py.
Absent `domain`/`service` keys behave exactly like empty strings in the
source (both are falsy), so they are modelled as `""`; an absent or null
`entity_id` is `none`; an absent, null or empty `data` is `[]`. -/
structure Action where
  domain : String
  service : String
  entity_id : Option EntityRef
  data : JObj
  deriving Repr, DecidableEq

/-- Python truthiness of an entity_id value. -/
def EntityRef.truthy : EntityRef → Bool
  | .scalar s => s ≠ ""
  | .listOf l => !l.isEmpty

def eidTruthy : Option EntityRef → Bool
  | none => false
  | some e => e.truthy

/-- The individual ids named by an entity_id (scalar normalized to a
one-element list), as `entity_list` in `_is_allowed`. -/
def eidList : Option EntityRef → List String
  | none => []
  | some (.scalar s) => [s]
  | some (.listOf l) => l

/-- The allow_cfg mapping. A Python allow value of None or of the empty
dict is modelled as `none` (both take the `if not allow` early return);
any other dict is `some cfg` where each field is `none` when the key is
absent or maps to None. -/
structure AllowCfg where
  domains : Option (List String)
  services : Option (List String)
  entities : Option (List String)
  deriving Repr, DecidableEq

/-- Python truthiness of an optional list field of allow_cfg. -/
def truthyOpt : Option (List String) → Bool
  | some (_ :: _) => true
  | _ => false

/-- `_is_allowed` from call_model.py: fail-closed allowlist check. -/
def is_allowed (allow : Option AllowCfg) (domain service : String)
    (entity_id : Option EntityRef) : Bool :=
  match allow with
  | none => true
  | some cfg =>
    if truthyOpt cfg.domains && !((cfg.domains.getD []).contains domain) then
      false
    else if !truthyOpt cfg.services then
      false
    else if !((cfg.services.getD []).contains (domain ++ "." ++ service)) then
      false
    else if truthyOpt cfg.entities && eidTruthy entity_id then
      (eidList entity_id).all (fun e => (cfg.entities.getD []).contains e)
    else
      true

/-- data with any entity_id key removed (`data_for_key` in merge_actions). -/
def strip_entity (d : JObj) : JObj :=
  d.filter (fun p => p.1 ≠ "entity_id")

/-- The merge grouping key built in merge_actions. -/
def action_key (a : Action) : String :=
  a.domain ++ "." ++ a.service ++ ":" ++ dumps_obj (strip_entity a.data)

/-- Append an id if not already collected (the dedup in merge_actions). -/
def add_eid (acc : List String) (e : String) : List String :=
  if acc.contains e then acc else acc ++ [e]

/-- Collect the ids contributed by one action into a group, exactly as the
`if entity_id:` block of merge_actions does (a falsy entity_id contributes
nothing; every element of a truthy list is collected). -/
def collect_ids (acc : List String) : Option EntityRef → List String
  | none => acc
  | some (.scalar s) => if s = "" then acc else add_eid acc s
  | some (.listOf l) => if l.isEmpty then acc else l.foldl add_eid acc

/-- The per-key accumulator dict entry of merge_actions. -/
structure MGroup where
  domain : String
  service : String
  data : JObj
  eids : List String
  deriving Repr, DecidableEq

/-- Processing of one action in the merge loop. -/
def merge_step (gs : List (String × MGroup)) (a : Action) : List (String × MGroup) :=
  let k := action_key a
  if (gs.lookup k).isSome then
    gs.map (fun p =>
      if p.1 = k then (k, { p.2 with eids := collect_ids p.2.eids a.entity_id }) else p)
  else
    gs ++ [(k, ⟨a.domain, a.service, a.data, collect_ids [] a.entity_id⟩)]

/-- The `_entity_ids` rendering of merge_actions: one id stays scalar,
several become a list, none omits the field. -/
def render_eids : List String → Option EntityRef
  | [] => none
  | [e] => some (.scalar e)
  | es => some (.listOf es)

def render_group (g : MGroup) : Action :=
  ⟨g.domain, g.service, render_eids g.eids, g.data⟩

/-- `merge_actions` from call_model.py. -/
def merge_actions (actions : List Action) : List Action :=
  (actions.foldl merge_step []).map (fun p => render_group p.2)

/-- One group of `_build_action_groups`: accumulated entity set (as a list
up to membership) and member actions. -/
abbrev EGroup := List String × List Action

/-- Scan for the first existing group whose entity set is non-empty and
disjoint from the new action, add the action there and union the sets. -/
def try_place (es : List String) (a : Action) : List EGroup → Option (List EGroup)
  | [] => none
  | (s, acts) :: rest =>
    if !s.isEmpty && s.all (fun x => !es.contains x) then
      some ((s ++ es, acts ++ [a]) :: rest)
    else
      (try_place es a rest).map (fun r => (s, acts) :: r)

/-- Processing of one action in `_build_action_groups`. -/
def group_step (gs : List EGroup) (a : Action) : List EGroup :=
  match a.entity_id with
  | none => gs ++ [([], [a])]
  | some e =>
    if !e.truthy then gs ++ [([], [a])]
    else
      let es := match e with | .scalar s => [s] | .listOf l => l
      match try_place es a gs with
      | some gs2 => gs2
      | none => gs ++ [(es, [a])]

/-- `_build_action_groups` from call_model.py. -/
def build_action_groups (actions : List Action) : List (List Action) :=
  (actions.foldl group_step []).map Prod.snd

/-- The per-action result record built by `_execute_tool_call` (the
`execution_time` field, pure timing telemetry, is not modelled). -/
structure ExecResult where
  domain : String
  service : String
  entity_id : Option EntityRef
  data : JObj
  allowed : Bool
  valid_entities : List String
  dropped_entities : List String
  success : Bool
  error : Option String
  deriving Repr, DecidableEq

/-- A backend service dispatch: the arguments handed to
hass.services.async_call. -/
structure Call where
  domain : String
  service : String
  data : JObj
  deriving Repr, DecidableEq

/-- dict.setdefault: insert the pair only when the key is absent. -/
def setdefault (d : JObj) (k : String) (v : JVal) : JObj :=
  if (d.lookup k).isSome then d else d ++ [(k, v)]

/-- The JSON value a validated entity_id takes inside the dispatch data. -/
def eid_jval : EntityRef → JVal
  | .scalar s => .jstr s
  | .listOf l => .jstrs l

/-- Tail of `_execute_tool_call` after entity validation: record the final
entity_id, enforce the allowlist, and dispatch when allowed. The backend
call itself is external; a performed dispatch is returned as `some` call
(an exception raised by the backend would be caught there and recorded,
never undoing the dispatch). -/
def after_validation (allow : Option AllowCfg) (res : ExecResult)
    (eid : Option EntityRef) (data : JObj) : ExecResult × Option Call :=
  let res := { res with entity_id := eid }
  if !is_allowed allow res.domain res.service eid then
    ({ res with error := some "blocked by allowlist" }, none)
  else
    ({ res with allowed := true, success := true }, some ⟨res.domain, res.service, data⟩)

/-- `_execute_tool_call` from call_model.py, with the entity registry
abstracted as the membership predicate `known` (hass.states.get(eid) is
not None). The Python set difference building `dropped` is modelled as
the unknown ids deduplicated in first-seen order; only its membership is
observable. -/
def execute_tool_call (known : String → Bool) (allow : Option AllowCfg)
    (action : Action) : ExecResult × Option Call :=
  let domain := action.domain
  let service := action.service
  let data := action.data
  let res0 : ExecResult :=
    ⟨domain, service, action.entity_id, strip_entity data, false, [], [], false, none⟩
  if domain = "" || service = "" then
    ({ res0 with error := some "missing domain or service" }, none)
  else
    match action.entity_id with
    | some (.listOf l) =>
      if l.isEmpty then
        after_validation allow res0 action.entity_id data
      else
        let valid := l.filter known
        let dropped := (l.filter (fun x => !known x)).dedup
        if valid.isEmpty then
          ({ res0 with dropped_entities := dropped, error := some "no valid entity_ids" }, none)
        else
          let eid2 : EntityRef :=
            if valid.length > 1 then .listOf valid else .scalar (valid.headD "")
          after_validation allow
            { res0 with valid_entities := valid, dropped_entities := dropped }
            (some eid2) (setdefault data "entity_id" (eid_jval eid2))
    | some (.scalar s) =>
      if s = "" then
        after_validation allow res0 action.entity_id data
      else if !known s then
        ({ res0 with
            dropped_entities := [s]
            error := some ("unknown entity_id: " ++ s) }, none)
      else
        after_validation allow { res0 with valid_entities := [s] }
          (some (.scalar s)) (setdefault data "entity_id" (.jstr s))
    | none => after_validation allow res0 none data

/-- The entity-existence validation outcome of `_execute_tool_call`
(true exactly when execution reaches the allowlist check). -/
def validation_ok (known : String → Bool) (a : Action) : Bool :=
  a.domain ≠ "" && a.service ≠ "" &&
  (match a.entity_id with
   | some (.listOf l) => l.isEmpty || !(l.filter known).isEmpty
   | some (.scalar s) => (s = "" : Bool) || known s
   | none => true)

/-- The entity_id value in force at the allowlist check, after unknown ids
are dropped. -/
def validated_eid (known : String → Bool) (a : Action) : Option EntityRef :=
  match a.entity_id with
  | some (.listOf l) =>
    if l.isEmpty then a.entity_id
    else
      let valid := l.filter known
      if valid.length > 1 then some (.listOf valid) else some (.scalar (valid.headD ""))
  | e => e

/-- The response cache: an OrderedDict from key to (timestamp, value),
least-recently-used first. -/
abbrev Cache (α : Type) := List (String × Int × α)

def CACHE_TTL : Int := 60

def CACHE_MAX : Nat := 50

/-- OrderedDict.move_to_end(key): relocate the entry to the most-recent
position. -/
def move_to_end {α : Type} (key : String) (c : Cache α) : Cache α :=
  match c.lookup key with
  | none => c
  | some v => c.filter (fun p => p.1 ≠ key) ++ [(key, v)]

/-- `_cache_get`: fresh hits count as most-recently-used, expired entries
are popped. Returns the response (if any) and the updated cache. -/
def cache_get {α : Type} (now : Int) (key : String) (c : Cache α) : Option α × Cache α :=
  match c.lookup key with
  | none => (none, c)
  | some (ts, v) =>
    if now - ts > CACHE_TTL then (none, c.filter (fun p => p.1 ≠ key))
    else (some v, move_to_end key c)

/-- Dict item assignment: overwrite in place, or append a new key. -/
def set_item {α : Type} (key : String) (e : Int × α) (c : Cache α) : Cache α :=
  if (c.lookup key).isSome then
    c.map (fun p => if p.1 = key then (key, e) else p)
  else
    c ++ [(key, e)]

/-- The eviction loop of `_cache_put`: pop oldest while over capacity. -/
def evict_over {α : Type} : Cache α → Cache α
  | [] => []
  | x :: xs => if (x :: xs).length > CACHE_MAX then evict_over xs else x :: xs

/-- `_cache_put`: store, mark most-recently-used, evict oldest while full. -/
def cache_put {α : Type} (key : String) (now : Int) (v : α) (c : Cache α) : Cache α :=
  evict_over (move_to_end key (set_item key (now, v) c))

/-- A validated Plan: the shape both planner variants hand back. -/
structure Plan where
  actions : List Action
  explanation : String
  deriving Repr, DecidableEq

/-- `_CACHEABLE_SERVICES` from call_model.py. -/
def CACHEABLE_SERVICES : List String :=
  ["light.turn_on", "light.turn_off",
   "switch.turn_on", "switch.turn_off",
   "cover.open_cover", "cover.close_cover", "cover.set_cover_position"]

/-- `_all_cacheable` from call_model.py. -/
def all_cacheable (actions : List Action) : Bool :=
  actions.all (fun a => CACHEABLE_SERVICES.contains (a.domain ++ "." ++ a.service))

/-- The actions executed for a reply, in execution order: merge, group,
then run the groups one after another (asyncio.gather preserves member
order inside a group, so the flattened order is the recorded order). -/
def executed_actions (reply : Plan) : List Action :=
  (build_action_groups (merge_actions reply.actions)).flatten

/-- The execution phase of call_model_wrapper on a chosen reply. -/
def run_plan (known : String → Bool) (allow : Option AllowCfg) (reply : Plan) :
    List (ExecResult × Option Call) :=
  (executed_actions reply).map (execute_tool_call known allow)

/-- Text-path reply selection in call_model_wrapper: a fresh cache hit is
reused verbatim, otherwise the planner reply is used. -/
def select_reply (cache : Cache Plan) (now : Int) (key : String) (planner : Plan) : Plan :=
  ((cache_get now key cache).1).getD planner

/-- The whole text-path run: select the reply (cache or planner), then
merge, group and execute it. -/
def text_run (cache : Cache Plan) (now : Int) (key : String) (planner : Plan)
    (known : String → Bool) (allow : Option AllowCfg) :
    List (ExecResult × Option Call) :=
  run_plan known allow (select_reply cache now key planner)

/-- The text-path cache bookkeeping of call_model_wrapper: on a miss, the
fresh reply is stored iff it has actions and all are cacheable. Returns
whether the planner reply was stored, and the updated cache. -/
def text_cache_update (cache : Cache Plan) (now : Int) (key : String)
    (planner : Plan) : Bool × Cache Plan :=
  match cache_get now key cache with
  | (some _, c1) => (false, c1)
  | (none, c1) =>
    if !planner.actions.isEmpty && all_cacheable planner.actions then
      (true, cache_put key now planner c1)
    else
      (false, c1)

/-- A raw JSON value decoded from the model output, before validation.
Leaf values inside an action data mapping are restricted to the flat
grammar of `JVal`; the reply-level structure (objects, arrays) is full. -/
inductive RVal where
  | rnull
  | rbool (b : Bool)
  | rnum (n : Int)
  | rstr (s : String)
  | rarr (l : List RVal)
  | robj (o : List (String × RVal))

def RVal.isArr : RVal → Bool
  | .rarr _ => true
  | _ => false

def asStr : RVal → Option String
  | .rstr s => some s
  | _ => none

/-- Pydantic validation of Union[str, list[str]] for Action.entity_id. -/
def validate_entity : RVal → Option EntityRef
  | .rstr s => some (.scalar s)
  | .rarr l => (l.mapM asStr).map EntityRef.listOf
  | _ => none

/-- Conversion of a raw leaf value into the flat data-value grammar. -/
def rval_to_jval : RVal → Option JVal
  | .rnull => some .null
  | .rbool b => some (.jbool b)
  | .rnum n => some (.jnum n)
  | .rstr s => some (.jstr s)
  | .rarr l => (l.mapM asStr).map JVal.jstrs
  | .robj _ => none

/-- Pydantic validation of the Action model: domain and service must be
strings, entity_id is required (str or list of str), data is an optional
dict defaulting to the empty one. -/
def validate_action : RVal → Option Action
  | .robj o => do
    let domain ← (o.lookup "domain").bind asStr
    let service ← (o.lookup "service").bind asStr
    let eid ← (o.lookup "entity_id").bind validate_entity
    let data ← match o.lookup "data" with
      | none => some ([] : JObj)
      | some (.robj d) => d.mapM (fun p => (rval_to_jval p.2).map (fun v => (p.1, v)))
      | some _ => none
    pure ⟨domain, service, some eid, data⟩
  | _ => none

/-- Pydantic validation of the Plan model: actions must be a list of valid
Actions and explanation a string; both fields are required. -/
def validate_plan : RVal → Option Plan
  | .robj o => do
    let acts ← match o.lookup "actions" with
      | some (.rarr l) => l.mapM validate_action
      | _ => none
    let expl ← (o.lookup "explanation").bind asStr
    pure ⟨acts, expl⟩
  | _ => none

/-- The dict handed back to the orchestrator by a planner variant; its
fields are raw JSON values because the audio fallback can pass model
output through unvalidated. -/
structure ReplyDict where
  actions : RVal
  explanation : RVal

def jval_rval : JVal → RVal
  | .null => .rnull
  | .jbool b => .rbool b
  | .jnum n => .rnum n
  | .jstr s => .rstr s
  | .jstrs l => .rarr (l.map RVal.rstr)

def eid_rval : Option EntityRef → RVal
  | none => .rnull
  | some (.scalar s) => .rstr s
  | some (.listOf l) => .rarr (l.map RVal.rstr)

def action_rval (a : Action) : RVal :=
  .robj [("domain", .rstr a.domain), ("service", .rstr a.service),
         ("entity_id", eid_rval a.entity_id),
         ("data", .robj (a.data.map (fun p => (p.1, jval_rval p.2))))]

/-- Plan.model_dump(): the dict form of a validated plan. -/
def plan_to_reply (p : Plan) : ReplyDict :=
  ⟨.rarr (p.actions.map action_rval), .rstr p.explanation⟩

/-- The parse tail of `_blocking_gpt_call` (text variant): validate the
model content against the Plan schema; any failure (undecodable content
is `none`) falls back to an empty-actions reply whose explanation is a
diagnostic message (the exception text is abstracted to a fixed string). -/
def parse_text_reply : Option RVal → ReplyDict
  | some v =>
    match validate_plan v with
    | some p => plan_to_reply p
    | none => ⟨.rarr [], .rstr "Failed to parse JSON from model"⟩
  | none => ⟨.rarr [], .rstr "Failed to parse JSON from model"⟩

/-- dict.get with a default. -/
def raw_get (o : List (String × RVal)) (k : String) (d : RVal) : RVal :=
  (o.lookup k).getD d

/-- The tool-call parse of `_try_audio_call` (audio variant): Plan
validation first; if it fails but the arguments decoded as a JSON object,
the raw dict fallback takes raw.get("actions", []) and
raw.get("explanation", "") unchanged. `none` means no reply was produced
here (undecodable arguments trigger the retry; a decodable non-object
raises out of the attempt and is caught by the outermost handler). -/
def parse_audio_args : Option RVal → Option ReplyDict
  | none => none
  | some v =>
    match validate_plan v with
    | some p => some (plan_to_reply p)
    | none =>
      match v with
      | .robj o => some ⟨raw_get o "actions" (.rarr []), raw_get o "explanation" (.rstr "")⟩
      | _ => none

/-- C1, the authorization condition exactly as the claim states it, with
"entity_id is present" read literally as the value being present at all. -/
def claim_c1_stated : Option AllowCfg → String → String → Option EntityRef → Prop
  | none, _, _, _ => True
  | some cfg, d, s, e =>
    (truthyOpt cfg.domains = true → d ∈ cfg.domains.getD []) ∧
    truthyOpt cfg.services = true ∧
    (d ++ "." ++ s) ∈ cfg.services.getD [] ∧
    (truthyOpt cfg.entities = true → e.isSome = true →
      ∀ x ∈ eidList e, x ∈ cfg.entities.getD [])

/-- Disjointness of the entity-id sets of two actions (a scalar counts as
a one-element set). -/
def disjoint_ents (a b : Action) : Prop :=
  ∀ x ∈ eidList a.entity_id, x ∉ eidList b.entity_id

/-- The invariant maintained for every group while `_build_action_groups`
runs: a group is either the singleton group of a falsy-target action with
an empty entity set, or a group of truthy-target actions whose id sets are
all inside the accumulated set and pairwise disjoint. -/
def egroup_inv : EGroup → Prop
  | (s, acts) =>
    (s = [] ∧ ∃ a, acts = [a] ∧ eidTruthy a.entity_id = false)
    ∨ (s ≠ [] ∧ (∀ a ∈ acts, eidTruthy a.entity_id = true ∧
         ∀ x ∈ eidList a.entity_id, x ∈ s)
       ∧ acts.Pairwise disjoint_ents)

/-- First-seen-order dedup, the id-collection discipline of merge_actions. -/
def dedup_first (l : List String) : List String :=
  l.foldl add_eid []

/-- The ids an action contributes to its merge group, as the code collects
them: a non-empty scalar contributes its id, a list contributes all its
elements, anything falsy contributes nothing. -/
def amended_ids : Option EntityRef → List String
  | some (.scalar s) => if s = "" then [] else [s]
  | some (.listOf l) => l
  | none => []

/-- The ids the claim says are collected: every scalar contributes its id,
including the empty one. -/
def claim_ids : Option EntityRef → List String :=
  eidList

/-- The merge keys in order of first occurrence. -/
def keys_in_order (actions : List Action) : List String :=
  dedup_first (actions.map action_key)

/-- The group accumulator the claim describes for one key. -/
def spec_group (ids_of : Option EntityRef → List String) (k : String)
    (actions : List Action) : MGroup :=
  match actions.filter (fun a => action_key a = k) with
  | [] => ⟨"", "", [], []⟩
  | a :: rest =>
    ⟨a.domain, a.service, a.data,
     dedup_first ((a :: rest).flatMap (fun b => ids_of b.entity_id))⟩

/-- merge_actions as the claim words it, parameterized by the
id-collection rule. -/
def merge_spec (ids_of : Option EntityRef → List String)
    (actions : List Action) : List Action :=
  (keys_in_order actions).map
    (fun k => render_group (spec_group ids_of k actions))

/-- The claim's merge, collecting every scalar id. -/
def merge_claimed (actions : List Action) : List Action :=
  merge_spec claim_ids actions

/-- The amended merge, collecting only truthy scalar ids. -/
def merge_amended (actions : List Action) : List Action :=
  merge_spec amended_ids actions

/-- The merge accumulator the claim describes, keyed in first-occurrence
order. -/
def spec_state (ids_of : Option EntityRef → List String)
    (actions : List Action) : List (String × MGroup) :=
  (keys_in_order actions).map (fun k => (k, spec_group ids_of k actions))

/-! ## Theorems -/

/-- C1 counterexample: with entities restricted to ["x"], a present but
empty scalar entity_id "" is skipped by the source (Python truthiness), so
`_is_allowed` returns true even though "" is not an allowed entity; the
claim as stated demands false here. -/
theorem is_allowed_claim_cex :
    is_allowed (some ⟨none, some ["a.b"], some ["x"]⟩) "a" "b" (some (.scalar "")) = true ∧
    ¬ claim_c1_stated (some ⟨none, some ["a.b"], some ["x"]⟩) "a" "b"
        (some (.scalar "")) := by
  constructor
  · rfl
  · unfold claim_c1_stated
    decide

/-- C1 (amended): `_is_allowed` returns true iff allow is absent/empty, or
else (a) when the domains list is present and non-empty the domain is in
it, (b) the services list is present, non-empty and contains
domain ++ "." ++ service, and (c) when the entities list is present and
non-empty and the entity_id is present and truthy (a non-empty string or
non-empty list), every individual id is in the entities list. -/
theorem is_allowed_characterization (allow : Option AllowCfg) (d s : String)
    (e : Option EntityRef) :
    is_allowed allow d s e = true ↔
      (allow = none ∨ ∃ cfg, allow = some cfg ∧
        (truthyOpt cfg.domains = true → d ∈ cfg.domains.getD []) ∧
        truthyOpt cfg.services = true ∧
        (d ++ "." ++ s) ∈ cfg.services.getD [] ∧
        (truthyOpt cfg.entities = true → eidTruthy e = true →
          ∀ x ∈ eidList e, x ∈ cfg.entities.getD [])) := by
  cases allow with
  | none => simp [is_allowed]
  | some cfg =>
    simp only [is_allowed, Option.some.injEq]
    split_ifs with h1 h2 h3 h4
    · simp only [Bool.and_eq_true, Bool.not_eq_true', List.elem_eq_mem,
        decide_eq_false_iff_not] at h1
      simp only [false_or]
      constructor
      · exact fun h => absurd h (by simp)
      · rintro ⟨cfg', rfl, hd, -, -, -⟩
        exact absurd (hd h1.1) h1.2
    · simp only [Bool.not_eq_true'] at h2
      simp only [false_or]
      constructor
      · exact fun h => absurd h (by simp)
      · rintro ⟨cfg', rfl, -, hs, -, -⟩
        simp [hs] at h2
    · simp only [Bool.not_eq_true', List.elem_eq_mem, decide_eq_false_iff_not] at h3
      simp only [false_or]
      constructor
      · exact fun h => absurd h (by simp)
      · rintro ⟨cfg', rfl, -, -, hm, -⟩
        exact absurd hm h3
    · simp only [Bool.not_eq_true, Bool.and_eq_true, Bool.not_eq_true',
        List.elem_eq_mem, decide_eq_false_iff_not, not_and] at h1 h3
      simp only [Bool.not_eq_eq_eq_not, Bool.not_true, Bool.not_eq_false] at h2
      simp only [Bool.and_eq_true] at h4
      simp only [List.all_eq_true, List.elem_eq_mem, decide_eq_true_eq, false_or]
      constructor
      · intro h
        refine ⟨cfg, rfl, ?_, h2, ?_, fun _ _ => h⟩
        · intro hd
          by_contra hmem
          exact (h1 hd) hmem
        · by_contra hmem
          exact h3 hmem
      · rintro ⟨cfg', rfl, -, -, -, he⟩
        exact he h4.1 h4.2
    · simp only [Bool.not_eq_true, Bool.and_eq_true, Bool.not_eq_true',
        List.elem_eq_mem, decide_eq_false_iff_not, not_and] at h1 h3 h4
      simp only [Bool.not_eq_eq_eq_not, Bool.not_true, Bool.not_eq_false] at h2
      simp only [true_iff, false_or]
      refine ⟨cfg, rfl, ?_, h2, ?_, ?_⟩
      · intro hd
        by_contra hmem
        exact (h1 hd) hmem
      · by_contra hmem
        exact h3 hmem
      · intro het hee
        exact absurd hee (by simpa using h4 het)

/-- C5: the text path stores a planner reply in the response cache iff the
lookup missed, the reply has at least one action, and every action's
domain ++ "." ++ service is in the fixed cacheable-services set; a reply
with zero actions, or with any action outside the set, is never stored. -/
theorem cache_store_eligibility (cache : Cache Plan) (now : Int) (ck : String)
    (planner : Plan) :
    (text_cache_update cache now ck planner).1 = true ↔
      ((cache_get now ck cache).1 = none ∧ planner.actions ≠ [] ∧
       ∀ a ∈ planner.actions,
         (a.domain ++ "." ++ a.service) ∈ CACHEABLE_SERVICES) := by
  unfold text_cache_update
  rcases hget : cache_get now ck cache with ⟨o, c1⟩
  cases o with
  | some p => simp
  | none =>
    simp only
    split_ifs with h
    · simp only [Bool.and_eq_true, Bool.not_eq_eq_eq_not, Bool.not_true,
        List.isEmpty_eq_false, all_cacheable, List.all_eq_true, List.elem_eq_mem,
        decide_eq_true_eq] at h
      exact ⟨fun _ => ⟨trivial, h.1, h.2⟩, fun _ => rfl⟩
    · simp only [Bool.and_eq_true, Bool.not_eq_eq_eq_not, Bool.not_true,
        List.isEmpty_eq_false, all_cacheable, List.all_eq_true, List.elem_eq_mem,
        decide_eq_true_eq, not_and] at h
      constructor
      · intro hfalse; exact absurd hfalse (by simp)
      · rintro ⟨-, hne, hall⟩
        exact absurd (h hne) (by simpa using hall)

/-- Lookup of a key the dict already holds is unchanged by setdefault. -/
theorem setdefault_lookup_present (d : JObj) (k : String) (v : JVal)
    (h : (d.lookup k).isSome = true) : (setdefault d k v).lookup k = d.lookup k := by
  simp [setdefault, h]

theorem lookup_append_single {α : Type} (d : List (String × α)) (k : String) (v : α)
    (h : d.lookup k = none) : (d ++ [(k, v)]).lookup k = some v := by
  induction d with
  | nil => simp
  | cons p ps ih =>
    simp only [List.lookup] at h ⊢
    split at h
    · exact absurd h (by simp)
    · show List.lookup k (ps ++ [(k, v)]) = some v
      exact ih h

/-- Lookup of an absent key finds the value inserted by setdefault. -/
theorem setdefault_lookup_absent (d : JObj) (k : String) (v : JVal)
    (h : d.lookup k = none) : (setdefault d k v).lookup k = some v := by
  simp only [setdefault, h, Option.isSome_none, Bool.false_eq_true, if_false]
  exact lookup_append_single d k v h

/-- Per-branch evaluation of `_execute_tool_call`: missing domain or
service. -/
theorem exec_missing (known : String → Bool) (allow : Option AllowCfg)
    (ad asv : String) (ae : Option EntityRef) (adt : JObj)
    (h : ad = "" ∨ asv = "") :
    execute_tool_call known allow ⟨ad, asv, ae, adt⟩ =
      (⟨ad, asv, ae, strip_entity adt, false, [], [], false,
        some "missing domain or service"⟩, none) := by
  rcases h with h | h <;> subst h <;> simp [execute_tool_call]

/-- Per-branch evaluation: no entity_id at all. -/
theorem exec_none (known : String → Bool) (allow : Option AllowCfg)
    (ad asv : String) (adt : JObj) (had : ad ≠ "") (hasv : asv ≠ "") :
    execute_tool_call known allow ⟨ad, asv, none, adt⟩ =
      after_validation allow ⟨ad, asv, none, strip_entity adt, false, [], [], false, none⟩
        none adt := by
  simp [execute_tool_call, had, hasv]

/-- Per-branch evaluation: falsy scalar entity_id (empty string), the
validation block is skipped. -/
theorem exec_scalar_empty (known : String → Bool) (allow : Option AllowCfg)
    (ad asv : String) (adt : JObj) (had : ad ≠ "") (hasv : asv ≠ "") :
    execute_tool_call known allow ⟨ad, asv, some (.scalar ""), adt⟩ =
      after_validation allow ⟨ad, asv, some (.scalar ""), strip_entity adt, false, [], [], false, none⟩
        (some (.scalar "")) adt := by
  simp [execute_tool_call, had, hasv]

/-- Per-branch evaluation: unknown scalar entity_id, skipped with no
dispatch. -/
theorem exec_scalar_unknown (known : String → Bool) (allow : Option AllowCfg)
    (ad asv s : String) (adt : JObj) (had : ad ≠ "") (hasv : asv ≠ "")
    (hs : s ≠ "") (hk : known s = false) :
    execute_tool_call known allow ⟨ad, asv, some (.scalar s), adt⟩ =
      (⟨ad, asv, some (.scalar s), strip_entity adt, false, [], [s], false,
        some ("unknown entity_id: " ++ s)⟩, none) := by
  simp [execute_tool_call, had, hasv, hs, hk]

/-- Per-branch evaluation: known scalar entity_id. -/
theorem exec_scalar_known (known : String → Bool) (allow : Option AllowCfg)
    (ad asv s : String) (adt : JObj) (had : ad ≠ "") (hasv : asv ≠ "")
    (hs : s ≠ "") (hk : known s = true) :
    execute_tool_call known allow ⟨ad, asv, some (.scalar s), adt⟩ =
      after_validation allow ⟨ad, asv, some (.scalar s), strip_entity adt, false, [s], [], false, none⟩
        (some (.scalar s)) (setdefault adt "entity_id" (.jstr s)) := by
  simp [execute_tool_call, had, hasv, hs, hk]

/-- Per-branch evaluation: falsy empty entity_id list, the validation
block is skipped. -/
theorem exec_list_empty (known : String → Bool) (allow : Option AllowCfg)
    (ad asv : String) (adt : JObj) (had : ad ≠ "") (hasv : asv ≠ "") :
    execute_tool_call known allow ⟨ad, asv, some (.listOf []), adt⟩ =
      after_validation allow ⟨ad, asv, some (.listOf []), strip_entity adt, false, [], [], false, none⟩
        (some (.listOf [])) adt := by
  simp [execute_tool_call, had, hasv]

/-- Per-branch evaluation: entity_id list with no known id, skipped with
no dispatch. -/
theorem exec_list_none_valid (known : String → Bool) (allow : Option AllowCfg)
    (ad asv : String) (l : List String) (adt : JObj) (had : ad ≠ "")
    (hasv : asv ≠ "") (hemp : l ≠ []) (hv : l.filter known = []) :
    execute_tool_call known allow ⟨ad, asv, some (.listOf l), adt⟩ =
      (⟨ad, asv, some (.listOf l), strip_entity adt, false, [],
        (l.filter (fun x => !known x)).dedup, false,
        some "no valid entity_ids"⟩, none) := by
  simp [execute_tool_call, had, hasv, hemp, hv, List.filter_eq_nil_iff.mp hv]

/-- Per-branch evaluation: entity_id list with at least one known id. -/
theorem exec_list_valid (known : String → Bool) (allow : Option AllowCfg)
    (ad asv : String) (l : List String) (adt : JObj) (had : ad ≠ "")
    (hasv : asv ≠ "") (hemp : l ≠ []) (hv : l.filter known ≠ []) :
    execute_tool_call known allow ⟨ad, asv, some (.listOf l), adt⟩ =
      after_validation allow
        ⟨ad, asv, some (.listOf l), strip_entity adt, false, l.filter known,
          (l.filter (fun x => !known x)).dedup, false, none⟩
        (some (if (l.filter known).length > 1 then .listOf (l.filter known)
               else .scalar ((l.filter known).headD "")))
        (setdefault adt "entity_id"
          (eid_jval (if (l.filter known).length > 1 then .listOf (l.filter known)
                     else .scalar ((l.filter known).headD "")))) := by
  simp [execute_tool_call, had, hasv, hemp, hv]

/-- Evaluation of the post-validation tail when the allowlist denies. -/
theorem after_validation_denied (allow : Option AllowCfg) (res : ExecResult)
    (eid : Option EntityRef) (d : JObj)
    (hal : is_allowed allow res.domain res.service eid = false) :
    after_validation allow res eid d =
      ({ res with entity_id := eid, error := some "blocked by allowlist" }, none) := by
  simp [after_validation, hal]

/-- Evaluation of the post-validation tail when the allowlist permits:
the dispatch is performed. -/
theorem after_validation_allowed (allow : Option AllowCfg) (res : ExecResult)
    (eid : Option EntityRef) (d : JObj)
    (hal : is_allowed allow res.domain res.service eid = true) :
    after_validation allow res eid d =
      ({ res with entity_id := eid, allowed := true, success := true },
       some ⟨res.domain, res.service, d⟩) := by
  simp [after_validation, hal]

/-- validated_eid on a non-empty list with surviving ids. -/
theorem validated_eid_list (known : String → Bool) (ad asv : String)
    (l : List String) (adt : JObj) (hemp : l ≠ []) :
    validated_eid known ⟨ad, asv, some (.listOf l), adt⟩ =
      some (if (l.filter known).length > 1 then EntityRef.listOf (l.filter known)
            else .scalar ((l.filter known).headD "")) := by
  simp [validated_eid, hemp]
  split <;> rfl

/-- C10: when an action data mapping already contains the "entity_id"
key, the dispatched payload keeps that pre-existing value (setdefault);
the validated top-level entity_id is inserted into the dispatch data only
when the key was absent, in which case the payload carries exactly the
validated value. -/
theorem dispatch_data_entity_passthrough (known : String → Bool)
    (allow : Option AllowCfg) (a : Action) (c : Call)
    (h : (execute_tool_call known allow a).2 = some c) :
    ((a.data.lookup "entity_id").isSome = true →
       c.data.lookup "entity_id" = a.data.lookup "entity_id")
    ∧ (a.data.lookup "entity_id" = none → eidTruthy a.entity_id = true →
       ∀ e, validated_eid known a = some e →
         c.data.lookup "entity_id" = some (eid_jval e)) := by
  obtain ⟨ad, asv, ae, adt⟩ := a
  by_cases had : ad = ""
  · rw [exec_missing known allow ad asv ae adt (Or.inl had)] at h
    exact absurd h (by simp)
  · by_cases hasv : asv = ""
    · rw [exec_missing known allow ad asv ae adt (Or.inr hasv)] at h
      exact absurd h (by simp)
    · cases ae with
      | none =>
        rw [exec_none known allow ad asv adt had hasv] at h
        refine ⟨?_, by simp [eidTruthy]⟩
        rcases hal : is_allowed allow ad asv (none : Option EntityRef) with _ | _
        · rw [after_validation_denied allow _ _ _ hal] at h
          exact absurd h (by simp)
        · rw [after_validation_allowed allow _ _ _ hal] at h
          injection h with h
          subst h
          exact fun _ => rfl
      | some e =>
        cases e with
        | scalar s =>
          by_cases hs : s = ""
          · subst hs
            rw [exec_scalar_empty known allow ad asv adt had hasv] at h
            refine ⟨?_, by simp [eidTruthy, EntityRef.truthy]⟩
            rcases hal : is_allowed allow ad asv (some (.scalar "")) with _ | _
            · rw [after_validation_denied allow _ _ _ hal] at h
              exact absurd h (by simp)
            · rw [after_validation_allowed allow _ _ _ hal] at h
              injection h with h
              subst h
              exact fun _ => rfl
          · rcases hk : known s with _ | _
            · rw [exec_scalar_unknown known allow ad asv s adt had hasv hs hk] at h
              exact absurd h (by simp)
            · rw [exec_scalar_known known allow ad asv s adt had hasv hs hk] at h
              rcases hal : is_allowed allow ad asv (some (.scalar s)) with _ | _
              · rw [after_validation_denied allow _ _ _ hal] at h
                exact absurd h (by simp)
              · rw [after_validation_allowed allow _ _ _ hal] at h
                injection h with h
                subst h
                constructor
                · exact fun hpres => setdefault_lookup_present _ _ _ hpres
                · intro habs _ e he
                  simp only [validated_eid] at he
                  injection he with he
                  subst he
                  exact setdefault_lookup_absent _ _ _ habs
        | listOf l =>
          by_cases hemp : l = ([] : List String)
          · subst hemp
            rw [exec_list_empty known allow ad asv adt had hasv] at h
            refine ⟨?_, by simp [eidTruthy, EntityRef.truthy]⟩
            rcases hal : is_allowed allow ad asv (some (.listOf [])) with _ | _
            · rw [after_validation_denied allow _ _ _ hal] at h
              exact absurd h (by simp)
            · rw [after_validation_allowed allow _ _ _ hal] at h
              injection h with h
              subst h
              exact fun _ => rfl
          · by_cases hv : l.filter known = []
            · rw [exec_list_none_valid known allow ad asv l adt had hasv hemp hv] at h
              exact absurd h (by simp)
            · rw [exec_list_valid known allow ad asv l adt had hasv hemp hv] at h
              rcases hal : is_allowed allow ad asv
                  (some (if (l.filter known).length > 1 then
                           EntityRef.listOf (l.filter known)
                         else .scalar ((l.filter known).headD ""))) with _ | _
              · rw [after_validation_denied allow _ _ _ hal] at h
                exact absurd h (by simp)
              · rw [after_validation_allowed allow _ _ _ hal] at h
                injection h with h
                subst h
                constructor
                · exact fun hpres => setdefault_lookup_present _ _ _ hpres
                · intro habs _ e he
                  rw [validated_eid_list known ad asv l adt hemp] at he
                  injection he with he
                  subst he
                  exact setdefault_lookup_absent _ _ _ habs

/-- C8 counterexample: an action whose single scalar entity_id is the
empty string — an id the registry does not know (the membership predicate
is constantly false) — is not skipped: the empty string is falsy, so the
`if entity_id:` guard bypasses the validation block entirely, nothing is
dropped or recorded, no error is set, and the backend call is dispatched.
The claim as stated demands a skipped action with a recorded error and no
backend call here. -/
theorem entity_validation_claim_cex :
    ((fun _ => false : String → Bool) "" = false) ∧
    (execute_tool_call (fun _ => false) none
        ⟨"light", "turn_on", some (.scalar ""), []⟩).2 =
      some ⟨"light", "turn_on", []⟩ ∧
    (execute_tool_call (fun _ => false) none
        ⟨"light", "turn_on", some (.scalar ""), []⟩).1.error = none ∧
    (execute_tool_call (fun _ => false) none
        ⟨"light", "turn_on", some (.scalar ""), []⟩).1.dropped_entities = [] :=
  ⟨rfl, rfl, rfl, rfl⟩

/-- C8 (amended): during execution of one action that reaches entity
validation (domain and service present): every unresolvable id of a truthy
entity_id is dropped and recorded in dropped_entities, every surviving
target resolves, and an action whose non-empty id list is entirely
unresolvable (or whose non-empty scalar id is unknown) is skipped
entirely — no backend call, an error recorded, and the function returns
normally (the embedding is total, so the run continues); an action whose
entity_id is falsy (an empty string or an empty list) bypasses entity
validation entirely: nothing is dropped or recorded and it is dispatched
exactly when the allowlist permits it. -/
theorem entity_validation_behavior (known : String → Bool)
    (allow : Option AllowCfg) (a : Action)
    (had : a.domain ≠ "") (hasv : a.service ≠ "") :
    (∀ l, a.entity_id = some (.listOf l) → l ≠ [] →
       ((∀ x ∈ l, known x = false →
           x ∈ (execute_tool_call known allow a).1.dropped_entities)
        ∧ (∀ x ∈ (execute_tool_call known allow a).1.valid_entities, known x = true)
        ∧ ((∀ x ∈ l, known x = false) →
            (execute_tool_call known allow a).2 = none ∧
            (execute_tool_call known allow a).1.error = some "no valid entity_ids")))
    ∧ (∀ s, a.entity_id = some (.scalar s) → s ≠ "" → known s = false →
        (execute_tool_call known allow a).2 = none ∧
        (execute_tool_call known allow a).1.dropped_entities = [s] ∧
        (execute_tool_call known allow a).1.error =
          some ("unknown entity_id: " ++ s))
    ∧ (a.entity_id.isSome = true → eidTruthy a.entity_id = false →
        (execute_tool_call known allow a).1.dropped_entities = [] ∧
        (execute_tool_call known allow a).1.valid_entities = [] ∧
        (execute_tool_call known allow a).2.isSome =
          is_allowed allow a.domain a.service a.entity_id) := by
  obtain ⟨ad, asv, ae, adt⟩ := a
  simp only at had hasv
  refine ⟨?_, ?_, ?_⟩
  · intro l heq hemp
    simp only at heq
    subst heq
    by_cases hv : l.filter known = []
    · rw [exec_list_none_valid known allow ad asv l adt had hasv hemp hv]
      refine ⟨?_, by simp, fun _ => ⟨rfl, rfl⟩⟩
      intro x hx hkx
      simp [List.mem_dedup, List.mem_filter, hx, hkx]
    · rw [exec_list_valid known allow ad asv l adt had hasv hemp hv]
      have hdrop : ∀ x ∈ l, known x = false →
          x ∈ (l.filter (fun y => !known y)).dedup := by
        intro x hx hkx
        simp [List.mem_dedup, List.mem_filter, hx, hkx]
      have hval : ∀ x ∈ l.filter known, known x = true := by
        intro x hx
        exact (List.mem_filter.mp hx).2
      have hcon : ¬ (∀ x ∈ l, known x = false) := by
        intro hall
        exact hv (List.filter_eq_nil_iff.mpr (by intro x hx; simp [hall x hx]))
      rcases hal : is_allowed allow ad asv
          (some (if (l.filter known).length > 1 then
                   EntityRef.listOf (l.filter known)
                 else .scalar ((l.filter known).headD ""))) with _ | _
      · rw [after_validation_denied allow _ _ _ hal]
        exact ⟨hdrop, hval, fun hall => absurd hall hcon⟩
      · rw [after_validation_allowed allow _ _ _ hal]
        exact ⟨hdrop, hval, fun hall => absurd hall hcon⟩
  · intro s heq hs hk
    simp only at heq
    subst heq
    rw [exec_scalar_unknown known allow ad asv s adt had hasv hs hk]
    exact ⟨rfl, rfl, rfl⟩
  · intro hpres htr
    cases ae with
    | none => simp at hpres
    | some e =>
      cases e with
      | scalar s =>
        have hs : s = "" := by
          simpa [eidTruthy, EntityRef.truthy] using htr
        subst hs
        rw [exec_scalar_empty known allow ad asv adt had hasv]
        rcases hal : is_allowed allow ad asv (some (.scalar "")) with _ | _
        · rw [after_validation_denied allow _ _ _ hal]
          exact ⟨rfl, rfl, by simp [hal]⟩
        · rw [after_validation_allowed allow _ _ _ hal]
          exact ⟨rfl, rfl, by simp [hal]⟩
      | listOf l =>
        have hl : l = ([] : List String) := by
          simpa [eidTruthy, EntityRef.truthy, List.isEmpty_iff] using htr
        subst hl
        rw [exec_list_empty known allow ad asv adt had hasv]
        rcases hal : is_allowed allow ad asv (some (.listOf [])) with _ | _
        · rw [after_validation_denied allow _ _ _ hal]
          exact ⟨rfl, rfl, by simp [hal]⟩
        · rw [after_validation_allowed allow _ _ _ hal]
          exact ⟨rfl, rfl, by simp [hal]⟩

/-- C8 witness: a concrete two-id action whose ids are both unknown is
skipped with a recorded error and both ids land in dropped_entities. -/
theorem entity_validation_behavior_witness :
    (execute_tool_call (fun _ => false) none
        ⟨"light", "turn_off", some (.listOf ["light.bad", "light.worse"]), []⟩).2 = none ∧
    (execute_tool_call (fun _ => false) none
        ⟨"light", "turn_off", some (.listOf ["light.bad", "light.worse"]), []⟩).1.error =
      some "no valid entity_ids" ∧
    "light.bad" ∈ (execute_tool_call (fun _ => false) none
        ⟨"light", "turn_off", some (.listOf ["light.bad", "light.worse"]), []⟩).1.dropped_entities := by
  have h := (entity_validation_behavior (fun _ => false) none
      ⟨"light", "turn_off", some (.listOf ["light.bad", "light.worse"]), []⟩
      (by decide) (by decide)).1 ["light.bad", "light.worse"] rfl (by decide)
  have hskip := h.2.2 (by decide)
  exact ⟨hskip.1, hskip.2, h.1 "light.bad" (by decide) rfl⟩

/-- C2: in a text-path orchestration run — whether the selected reply came
from the response cache or fresh from the planner — an executed action is
dispatched to the backend only if `_is_allowed` holds for it at execution
time on its post-validation entity_id, and an action failing that check
gets a recorded "blocked by allowlist" result and no backend call. -/
theorem dispatch_only_if_allowed (cache : Cache Plan) (now : Int) (ck : String)
    (planner : Plan) (known : String → Bool) (allow : Option AllowCfg)
    (a : Action)
    (_ha : a ∈ executed_actions (select_reply cache now ck planner)) :
    ((execute_tool_call known allow a).2.isSome = true →
       is_allowed allow a.domain a.service (validated_eid known a) = true ∧
       (execute_tool_call known allow a).1.entity_id = validated_eid known a)
    ∧ (validation_ok known a = true →
        is_allowed allow a.domain a.service (validated_eid known a) = false →
        (execute_tool_call known allow a).2 = none ∧
        (execute_tool_call known allow a).1.error = some "blocked by allowlist") := by
  obtain ⟨ad, asv, ae, adt⟩ := a
  by_cases had : ad = ""
  · rw [exec_missing known allow ad asv ae adt (Or.inl had)]
    exact ⟨by simp, by simp [validation_ok, had]⟩
  · by_cases hasv : asv = ""
    · rw [exec_missing known allow ad asv ae adt (Or.inr hasv)]
      exact ⟨by simp, by simp [validation_ok, hasv]⟩
    · cases ae with
      | none =>
        rw [exec_none known allow ad asv adt had hasv]
        have hveq : validated_eid known ⟨ad, asv, none, adt⟩ = none := rfl
        rw [hveq]
        rcases hal : is_allowed allow ad asv (none : Option EntityRef) with _ | _
        · rw [after_validation_denied allow _ _ _ hal]
          exact ⟨by simp, fun _ _ => ⟨rfl, rfl⟩⟩
        · rw [after_validation_allowed allow _ _ _ hal]
          exact ⟨fun _ => ⟨rfl, rfl⟩, fun _ hf => absurd hf (by simp)⟩
      | some e =>
        cases e with
        | scalar s =>
          by_cases hs : s = ""
          · subst hs
            rw [exec_scalar_empty known allow ad asv adt had hasv]
            have hveq : validated_eid known ⟨ad, asv, some (.scalar ""), adt⟩ =
                some (.scalar "") := rfl
            rw [hveq]
            rcases hal : is_allowed allow ad asv (some (.scalar "")) with _ | _
            · rw [after_validation_denied allow _ _ _ hal]
              exact ⟨by simp, fun _ _ => ⟨rfl, rfl⟩⟩
            · rw [after_validation_allowed allow _ _ _ hal]
              exact ⟨fun _ => ⟨rfl, rfl⟩, fun _ hf => absurd hf (by simp)⟩
          · rcases hk : known s with _ | _
            · rw [exec_scalar_unknown known allow ad asv s adt had hasv hs hk]
              refine ⟨by simp, fun hok _ => ?_⟩
              simp [validation_ok, hs, hk] at hok
            · rw [exec_scalar_known known allow ad asv s adt had hasv hs hk]
              have hveq : validated_eid known ⟨ad, asv, some (.scalar s), adt⟩ =
                  some (.scalar s) := rfl
              rw [hveq]
              rcases hal : is_allowed allow ad asv (some (.scalar s)) with _ | _
              · rw [after_validation_denied allow _ _ _ hal]
                exact ⟨by simp, fun _ _ => ⟨rfl, rfl⟩⟩
              · rw [after_validation_allowed allow _ _ _ hal]
                exact ⟨fun _ => ⟨rfl, rfl⟩, fun _ hf => absurd hf (by simp)⟩
        | listOf l =>
          by_cases hemp : l = ([] : List String)
          · subst hemp
            rw [exec_list_empty known allow ad asv adt had hasv]
            have hveq : validated_eid known ⟨ad, asv, some (.listOf []), adt⟩ =
                some (.listOf []) := rfl
            rw [hveq]
            rcases hal : is_allowed allow ad asv (some (.listOf [])) with _ | _
            · rw [after_validation_denied allow _ _ _ hal]
              exact ⟨by simp, fun _ _ => ⟨rfl, rfl⟩⟩
            · rw [after_validation_allowed allow _ _ _ hal]
              exact ⟨fun _ => ⟨rfl, rfl⟩, fun _ hf => absurd hf (by simp)⟩
          · by_cases hv : l.filter known = []
            · rw [exec_list_none_valid known allow ad asv l adt had hasv hemp hv]
              refine ⟨by simp, fun hok _ => ?_⟩
              simp [validation_ok, hemp, hv] at hok
            · rw [exec_list_valid known allow ad asv l adt had hasv hemp hv]
              rw [validated_eid_list known ad asv l adt hemp]
              rcases hal : is_allowed allow ad asv
                  (some (if (l.filter known).length > 1 then
                           EntityRef.listOf (l.filter known)
                         else .scalar ((l.filter known).headD ""))) with _ | _
              · rw [after_validation_denied allow _ _ _ hal]
                exact ⟨by simp, fun _ _ => ⟨rfl, rfl⟩⟩
              · rw [after_validation_allowed allow _ _ _ hal]
                exact ⟨fun _ => ⟨rfl, rfl⟩, fun _ hf => absurd hf (by simp)⟩

/-- C2 witness: a concrete run whose reply comes from a response-cache hit
(the planner reply differs) still dispatches only an allowlisted action. -/
theorem dispatch_only_if_allowed_witness :
    (⟨"light", "turn_on", some (.scalar "light.a"), []⟩ : Action) ∈
      executed_actions (select_reply
        [("k", (0, ⟨[⟨"light", "turn_on", some (.scalar "light.a"), []⟩], "on"⟩))]
        10 "k" ⟨[], "fresh"⟩) ∧
    (execute_tool_call (fun x => x == "light.a")
        (some ⟨none, some ["light.turn_on"], none⟩)
        ⟨"light", "turn_on", some (.scalar "light.a"), []⟩).2.isSome = true ∧
    is_allowed (some ⟨none, some ["light.turn_on"], none⟩) "light" "turn_on"
      (validated_eid (fun x => x == "light.a")
        ⟨"light", "turn_on", some (.scalar "light.a"), []⟩) = true := by
  have h := (dispatch_only_if_allowed
      [("k", (0, ⟨[⟨"light", "turn_on", some (.scalar "light.a"), []⟩], "on"⟩))]
      10 "k" ⟨[], "fresh"⟩ (fun x => x == "light.a")
      (some ⟨none, some ["light.turn_on"], none⟩)
      ⟨"light", "turn_on", some (.scalar "light.a"), []⟩ (by decide)).1 (by decide)
  exact ⟨by decide, by decide, h.1⟩

/-- C10 witness: a concrete dispatched action whose data already names
"entity_id" keeps the data value, not the validated top-level target. -/
theorem dispatch_data_entity_passthrough_witness :
    (execute_tool_call (fun x => x == "light.a") none
        ⟨"light", "turn_on", some (.scalar "light.a"),
          [("entity_id", .jstr "light.b")]⟩).2 =
      some ⟨"light", "turn_on", [("entity_id", .jstr "light.b")]⟩ ∧
    (⟨"light", "turn_on", [("entity_id", JVal.jstr "light.b")]⟩ : Call).data.lookup "entity_id" =
      ([("entity_id", JVal.jstr "light.b")] : JObj).lookup "entity_id" := by
  have h := (dispatch_data_entity_passthrough (fun x => x == "light.a") none
      ⟨"light", "turn_on", some (.scalar "light.a"), [("entity_id", .jstr "light.b")]⟩
      ⟨"light", "turn_on", [("entity_id", .jstr "light.b")]⟩ (by decide)).1 (by decide)
  exact ⟨by decide, h⟩

/-- C9 counterexample: in the audio variant, tool arguments that decode as
a JSON object but fail Plan validation are passed through the raw dict
fallback, so a non-list "actions" value (here the string "oops") reaches
the orchestrator unconverted — the returned actions field is not a list. -/
theorem planner_reply_claim_cex :
    parse_audio_args (some (.robj [("actions", .rstr "oops"), ("explanation", .rstr "x")])) =
      some ⟨.rstr "oops", .rstr "x"⟩ ∧
    RVal.isArr (.rstr "oops") = false :=
  ⟨rfl, rfl⟩

/-- C9 (amended): the text variant always returns a Plan-shaped reply — any
model output failing Plan validation is replaced by an empty-actions reply
with a diagnostic explanation, so its actions field is a list for every
possible model response; the audio variant, when Plan validation fails on
JSON-object tool arguments, falls back to raw.get("actions", []) and
raw.get("explanation", ""), so an omitted explanation defaults to the empty
string and omitted actions default to the empty list, but a present
non-list actions value is passed through unchanged. -/
theorem planner_reply_shape :
    (∀ content : Option RVal, (parse_text_reply content).actions.isArr = true)
    ∧ (∀ o : List (String × RVal), validate_plan (.robj o) = none →
        parse_audio_args (some (.robj o)) =
          some ⟨raw_get o "actions" (.rarr []), raw_get o "explanation" (.rstr "")⟩) := by
  constructor
  · intro content
    cases content with
    | none => rfl
    | some v =>
      cases hv : validate_plan v with
      | none => simp [parse_text_reply, hv, RVal.isArr]
      | some p => simp [parse_text_reply, hv, plan_to_reply, RVal.isArr]
  · intro o hval
    simp [parse_audio_args, hval]

/-- C9 witness: a reply whose actions value is null fails validation; the
audio fallback then defaults the omitted explanation to the empty string
and keeps raw actions, exactly as the amended claim states. -/
theorem planner_reply_shape_witness :
    validate_plan (.robj [("actions", .rnull)]) = none ∧
    parse_audio_args (some (.robj [("actions", .rnull)])) =
      some ⟨.rnull, .rstr ""⟩ :=
  ⟨rfl, planner_reply_shape.2 [("actions", .rnull)] rfl⟩

theorem eidList_ne_nil (e : Option EntityRef) (h : eidTruthy e = true) :
    eidList e ≠ [] := by
  cases e with
  | none => simp [eidTruthy] at h
  | some e0 =>
    cases e0 with
    | scalar s => simp [eidList]
    | listOf l =>
      simp only [eidTruthy, EntityRef.truthy, Bool.not_eq_eq_eq_not, Bool.not_true,
        List.isEmpty_eq_false] at h
      simpa [eidList] using h

theorem try_place_inv (a : Action) (es : List String)
    (hes : es = eidList a.entity_id) (htr : eidTruthy a.entity_id = true) :
    ∀ gs gs', (∀ g ∈ gs, egroup_inv g) → try_place es a gs = some gs' →
      ∀ g ∈ gs', egroup_inv g := by
  intro gs
  induction gs with
  | nil => intro gs' _ h; simp [try_place] at h
  | cons hd rest ih =>
    intro gs' hinv h
    obtain ⟨s, acts⟩ := hd
    simp only [try_place] at h
    split_ifs at h with hc
    · simp only [Option.some.injEq] at h
      subst h
      simp only [Bool.and_eq_true, Bool.not_eq_eq_eq_not, Bool.not_true,
        List.isEmpty_eq_false, List.all_eq_true] at hc
      have hdisj : ∀ x ∈ s, x ∉ es := by
        intro x hx
        have := hc.2 x hx
        simpa using this
      have hinv0 := hinv (s, acts) (by simp)
      rcases hinv0 with ⟨hs0, -⟩ | ⟨-, hmem, hpw⟩
      · exact absurd hs0 hc.1
      intro g hg
      rcases List.mem_cons.mp hg with rfl | hg
      · refine Or.inr ⟨?_, ?_, ?_⟩
        · intro hn
          exact hc.1 (List.append_eq_nil.mp hn).1
        · intro b hb
          rcases List.mem_append.mp hb with hb | hb
          · exact ⟨(hmem b hb).1, fun x hx => List.mem_append_left _ ((hmem b hb).2 x hx)⟩
          · simp only [List.mem_singleton] at hb
            subst hb
            refine ⟨htr, fun x hx => List.mem_append_right _ ?_⟩
            rw [← hes] at hx
            exact hx
        · refine List.pairwise_append.mpr ⟨hpw, List.pairwise_singleton _ _, ?_⟩
          intro b hb c hcm
          simp only [List.mem_singleton] at hcm
          subst hcm
          intro x hxb
          rw [← hes]
          exact hdisj x ((hmem b hb).2 x hxb)
      · exact hinv g (List.mem_cons_of_mem _ hg)
    · rcases Option.map_eq_some'.mp h with ⟨r', hr', rfl⟩
      intro g hg
      rcases List.mem_cons.mp hg with rfl | hg
      · exact hinv _ (by simp)
      · exact ih r' (fun g' hg' => hinv g' (List.mem_cons_of_mem _ hg')) hr' g hg

theorem group_step_inv (gs : List EGroup) (a : Action)
    (hinv : ∀ g ∈ gs, egroup_inv g) : ∀ g ∈ group_step gs a, egroup_inv g := by
  rcases heq : a.entity_id with _ | e
  · simp only [group_step, heq]
    intro g hg
    rcases List.mem_append.mp hg with hg | hg
    · exact hinv g hg
    · simp only [List.mem_singleton] at hg
      subst hg
      exact Or.inl ⟨rfl, a, rfl, by simp [heq, eidTruthy]⟩
  · rcases hte : e.truthy with _ | _
    · simp only [group_step, heq, hte, Bool.not_false, if_true]
      intro g hg
      rcases List.mem_append.mp hg with hg | hg
      · exact hinv g hg
      · simp only [List.mem_singleton] at hg
        subst hg
        exact Or.inl ⟨rfl, a, rfl, by simp [heq, eidTruthy, hte]⟩
    · have htr : eidTruthy a.entity_id = true := by simp [heq, eidTruthy, hte]
      cases e with
      | scalar s =>
        have hes : [s] = eidList a.entity_id := by simp [heq, eidList]
        simp only [group_step, heq, hte, Bool.not_true, Bool.false_eq_true, if_false]
        rcases htp : try_place [s] a gs with _ | gs2
        · simp only [htp]
          intro g hg
          rcases List.mem_append.mp hg with hg | hg
          · exact hinv g hg
          · simp only [List.mem_singleton] at hg
            subst hg
            refine Or.inr ⟨by simp, ?_, List.pairwise_singleton _ _⟩
            intro b hb
            simp only [List.mem_singleton] at hb
            subst hb
            exact ⟨htr, fun x hx => by rw [← hes] at hx; exact hx⟩
        · simp only [htp]
          exact try_place_inv a [s] hes htr gs gs2 hinv htp
      | listOf l =>
        have hes : l = eidList a.entity_id := by simp [heq, eidList]
        have hl : l ≠ [] := by
          have := eidList_ne_nil a.entity_id htr
          rw [← hes] at this
          exact this
        simp only [group_step, heq, hte, Bool.not_true, Bool.false_eq_true, if_false]
        rcases htp : try_place l a gs with _ | gs2
        · simp only [htp]
          intro g hg
          rcases List.mem_append.mp hg with hg | hg
          · exact hinv g hg
          · simp only [List.mem_singleton] at hg
            subst hg
            refine Or.inr ⟨hl, ?_, List.pairwise_singleton _ _⟩
            intro b hb
            simp only [List.mem_singleton] at hb
            subst hb
            exact ⟨htr, fun x hx => by rw [← hes] at hx; exact hx⟩
        · simp only [htp]
          exact try_place_inv a l hes htr gs gs2 hinv htp

theorem fold_group_inv (actions : List Action) :
    ∀ gs, (∀ g ∈ gs, egroup_inv g) →
      ∀ g ∈ actions.foldl group_step gs, egroup_inv g := by
  induction actions with
  | nil => intro gs hinv; simpa using hinv
  | cons a rest ih =>
    intro gs hinv
    exact ih (group_step gs a) (group_step_inv gs a hinv)

/-- C3: in the partition returned by `_build_action_groups`, any two
actions placed in the same group have disjoint entity-id sets (a scalar
entity_id counting as a one-element set), and every action with no
entity_id occupies a group by itself. -/
theorem action_groups_disjoint (actions : List Action) (g : List Action)
    (hg : g ∈ build_action_groups actions) :
    List.Pairwise (fun a b => ∀ x ∈ eidList a.entity_id, x ∉ eidList b.entity_id) g
    ∧ ∀ a ∈ g, a.entity_id = none → g = [a] := by
  unfold build_action_groups at hg
  rcases List.mem_map.mp hg with ⟨⟨s, acts⟩, hmem, rfl⟩
  have hinv := fold_group_inv actions [] (by simp) _ hmem
  rcases hinv with ⟨-, a0, rfl, -⟩ | ⟨-, hall, hpw⟩
  · exact ⟨List.pairwise_singleton _ _, by
      intro a ha _
      simp only [List.mem_singleton] at ha
      rw [ha]⟩
  · refine ⟨hpw, ?_⟩
    intro a ha hnone
    have := (hall a ha).1
    rw [hnone] at this
    simp [eidTruthy] at this

/-- C3 witness: two actions with disjoint targets land in one shared
group, and the theorem yields their pairwise disjointness there. -/
theorem action_groups_disjoint_witness :
    [(⟨"light", "turn_on", some (.scalar "light.a"), []⟩ : Action),
     ⟨"switch", "turn_on", some (.scalar "switch.b"), []⟩] ∈
      build_action_groups
        [⟨"light", "turn_on", some (.scalar "light.a"), []⟩,
         ⟨"switch", "turn_on", some (.scalar "switch.b"), []⟩] ∧
    List.Pairwise (fun a b => ∀ x ∈ eidList a.entity_id, x ∉ eidList b.entity_id)
      [(⟨"light", "turn_on", some (.scalar "light.a"), []⟩ : Action),
       ⟨"switch", "turn_on", some (.scalar "switch.b"), []⟩] :=
  ⟨by decide,
   (action_groups_disjoint
      [⟨"light", "turn_on", some (.scalar "light.a"), []⟩,
       ⟨"switch", "turn_on", some (.scalar "switch.b"), []⟩]
      [⟨"light", "turn_on", some (.scalar "light.a"), []⟩,
       ⟨"switch", "turn_on", some (.scalar "switch.b"), []⟩] (by decide)).1⟩

theorem lookup_eq_none_of_not_mem {α : Type} (c : List (String × α)) (k : String)
    (h : k ∉ c.map Prod.fst) : c.lookup k = none := by
  induction c with
  | nil => rfl
  | cons p ps ih =>
    simp only [List.map_cons, List.mem_cons, not_or] at h
    have hb : (k == p.1) = false := by simp [h.1]
    simp only [List.lookup, hb]
    exact ih h.2

theorem filter_ne_key {α : Type} (c : List (String × α)) (k : String)
    (h : k ∉ c.map Prod.fst) : c.filter (fun p => p.1 ≠ k) = c := by
  rw [List.filter_eq_self]
  intro p hp
  have : p.1 ≠ k := by
    intro he
    exact h (List.mem_map.mpr ⟨p, hp, he⟩)
  simpa using this

/-- The eviction loop drops exactly the oldest entries beyond capacity. -/
theorem evict_over_eq_drop {α : Type} (c : Cache α) :
    evict_over c = c.drop (c.length - CACHE_MAX) := by
  induction c with
  | nil => rfl
  | cons x xs ih =>
    simp only [evict_over]
    split_ifs with h
    · rw [ih]
      have hx : (x :: xs).length - CACHE_MAX = (xs.length - CACHE_MAX) + 1 := by
        simp only [List.length_cons] at h ⊢
        omega
      rw [hx, List.drop_succ_cons]
    · have hx : (x :: xs).length - CACHE_MAX = 0 := by
        simp only [List.length_cons, gt_iff_lt, not_lt] at h ⊢
        omega
      rw [hx, List.drop_zero]

/-- Inserting a fresh key is append-then-evict. -/
theorem cache_put_fresh {α : Type} (c : Cache α) (k : String) (t : Int) (v : α)
    (hk : k ∉ c.map Prod.fst) :
    cache_put k t v c = evict_over (c ++ [(k, (t, v))]) := by
  have hnone : c.lookup k = none := lookup_eq_none_of_not_mem c k hk
  unfold cache_put set_item move_to_end
  rw [hnone]
  simp only [Option.isSome_none, Bool.false_eq_true, if_false]
  rw [lookup_append_single c k (t, v) hnone]
  rw [List.filter_append, filter_ne_key c k hk]
  simp

theorem cache_put_fresh_keys {α : Type} (c : Cache α) (k : String) (t : Int) (v : α)
    (hk : k ∉ c.map Prod.fst) :
    (cache_put k t v c).map Prod.fst =
      ((c.map Prod.fst) ++ [k]).drop ((c.length + 1) - CACHE_MAX) := by
  rw [cache_put_fresh c k t v hk, evict_over_eq_drop, List.map_drop]
  congr 1
  · simp
  · simp

theorem puts_keys {α : Type} (v0 : α) (ks : List String) (hnd : ks.Nodup) :
    ((ks.foldl (fun c k => cache_put k 0 v0 c) ([] : Cache α)).map Prod.fst) =
      ks.drop (ks.length - CACHE_MAX) := by
  induction ks using List.reverseRecOn with
  | nil => rfl
  | append_singleton ks k ih =>
    have hnd2 : ks.Nodup ∧ k ∉ ks := by
      rw [List.nodup_append] at hnd
      refine ⟨hnd.1, fun hmem => ?_⟩
      exact hnd.2.2 hmem (by simp)
    rw [List.foldl_append]
    simp only [List.foldl_cons, List.foldl_nil]
    set st := ks.foldl (fun c k => cache_put k 0 v0 c) ([] : Cache α) with hst
    have hkeys : st.map Prod.fst = ks.drop (ks.length - CACHE_MAX) := ih hnd2.1
    have hk : k ∉ st.map Prod.fst := by
      rw [hkeys]
      intro hmem
      exact hnd2.2 (List.drop_subset _ _ hmem)
    have hstlen : st.length = ks.length - (ks.length - CACHE_MAX) := by
      have hlenmap := congrArg List.length hkeys
      simpa [List.length_map, List.length_drop] using hlenmap
    rw [cache_put_fresh_keys st k 0 v0 hk, hkeys]
    by_cases hlt : ks.length < CACHE_MAX
    · have h1 : ks.length - CACHE_MAX = 0 := by omega
      have h2 : st.length + 1 - CACHE_MAX = 0 := by omega
      have h3 : (ks ++ [k]).length - CACHE_MAX = 0 := by
        simp only [List.length_append, List.length_cons, List.length_nil]
        omega
      rw [h1, h2, h3, List.drop_zero, List.drop_zero, List.drop_zero]
    · have hge : CACHE_MAX ≤ ks.length := by omega
      have hcm : CACHE_MAX = 50 := rfl
      have h2 : st.length + 1 - CACHE_MAX = 1 := by omega
      have h3 : (ks ++ [k]).length - CACHE_MAX = (ks.length - CACHE_MAX) + 1 := by
        simp only [List.length_append, List.length_cons, List.length_nil]
        omega
      rw [h2, h3]
      have hlen1 : 1 ≤ (ks.drop (ks.length - CACHE_MAX)).length := by
        rw [List.length_drop]
        omega
      rw [List.drop_append_of_le_length hlen1, List.drop_drop,
        List.drop_append_of_le_length (by omega : ks.length - CACHE_MAX + 1 ≤ ks.length)]

/-- C6: the response cache respects its capacity and LRU discipline:
(a) after every `_cache_put` the cache holds at most 50 entries;
(b) the eviction loop removes exactly the least-recently-used entries
(the front of the recency order);
(c) folding N distinct puts into an empty cache leaves exactly the last
min(N,50) inserted keys, in order — for N > 50 exactly 50 entries remain
and the evicted ones are precisely the least recently used;
(d) a fresh `_cache_get` hit returns the stored value and marks the entry
most-recently-used (it moves to the back of the recency order). -/
theorem response_cache_lru (α : Type) :
    (∀ (c : Cache α) (k : String) (now : Int) (v : α),
       (cache_put k now v c).length ≤ CACHE_MAX)
    ∧ (∀ c : Cache α, evict_over c = c.drop (c.length - CACHE_MAX))
    ∧ (∀ (v0 : α) (ks : List String), ks.Nodup →
        ((ks.foldl (fun c k => cache_put k 0 v0 c) ([] : Cache α)).map Prod.fst) =
          ks.drop (ks.length - CACHE_MAX)
        ∧ (CACHE_MAX < ks.length →
            (ks.foldl (fun c k => cache_put k 0 v0 c) ([] : Cache α)).length = CACHE_MAX))
    ∧ (∀ (c : Cache α) (k : String) (now ts : Int) (v : α),
        c.lookup k = some (ts, v) → now - ts ≤ CACHE_TTL →
        (cache_get now k c).1 = some v ∧
        (cache_get now k c).2.getLast? = some (k, (ts, v))) := by
  refine ⟨?_, evict_over_eq_drop, ?_, ?_⟩
  · intro c k now v
    unfold cache_put
    rw [evict_over_eq_drop, List.length_drop]
    omega
  · intro v0 ks hnd
    refine ⟨puts_keys v0 ks hnd, fun hbig => ?_⟩
    have hlen := congrArg List.length (puts_keys (α := α) v0 ks hnd)
    rw [List.length_map, List.length_drop] at hlen
    omega
  · intro c k now ts v hl hfresh
    have hnot : ¬ (CACHE_TTL < now - ts) := by omega
    constructor
    · simp [cache_get, hl, hnot]
    · simp [cache_get, move_to_end, hl, hnot, List.getLast?_concat]

/-- C6 witness: 51 distinct keys folded into the empty cache leave exactly
the last 50 keys, and a fresh hit on a two-entry cache returns the value
and moves the entry to the most-recent position. -/
theorem response_cache_lru_witness :
    (((List.range 51).map (fun n => toString n)).Nodup ∧
      (((List.range 51).map (fun n => toString n)).foldl
          (fun c k => cache_put k 0 () c) ([] : Cache Unit)).length = CACHE_MAX)
    ∧ (([("a", ((0 : Int), ())), ("b", ((3 : Int), ()))] : Cache Unit).lookup "a" =
         some (0, ()) ∧
       (cache_get 10 "a" ([("a", ((0 : Int), ())), ("b", ((3 : Int), ()))] : Cache Unit)).1 =
         some () ∧
       (cache_get 10 "a" ([("a", ((0 : Int), ())), ("b", ((3 : Int), ()))] : Cache Unit)).2.getLast? =
         some ("a", (0, ()))) := by
  have hnd : ((List.range 51).map (fun n => toString n)).Nodup := by decide
  have h1 := ((response_cache_lru Unit).2.2.1 () ((List.range 51).map (fun n => toString n))
      hnd).2 (by decide)
  have h2 := (response_cache_lru Unit).2.2.2
      [("a", ((0 : Int), ())), ("b", ((3 : Int), ()))] "a" 10 0 () (by decide) (by decide)
  exact ⟨⟨hnd, h1⟩, by decide, h2.1, h2.2⟩

theorem mem_add_eid (acc : List String) (y x : String) :
    x ∈ add_eid acc y ↔ x ∈ acc ∨ x = y := by
  unfold add_eid
  split_ifs with hc
  · simp only [List.elem_eq_mem, decide_eq_true_eq] at hc
    constructor
    · exact Or.inl
    · rintro (h | rfl)
      · exact h
      · exact hc
  · simp

theorem mem_foldl_add (l : List String) :
    ∀ (acc : List String) (x : String),
      x ∈ l.foldl add_eid acc ↔ x ∈ acc ∨ x ∈ l := by
  induction l with
  | nil => simp
  | cons y ys ih =>
    intro acc x
    simp only [List.foldl_cons, ih, mem_add_eid, List.mem_cons]
    tauto

theorem nodup_add_eid (acc : List String) (y : String) (h : acc.Nodup) :
    (add_eid acc y).Nodup := by
  unfold add_eid
  split_ifs with hc
  · exact h
  · simp only [List.elem_eq_mem, decide_eq_true_eq] at hc
    simpa [List.nodup_append, hc] using h

theorem nodup_foldl_add (l : List String) :
    ∀ acc : List String, acc.Nodup → (l.foldl add_eid acc).Nodup := by
  induction l with
  | nil => intro acc h; simpa using h
  | cons y ys ih =>
    intro acc h
    exact ih (add_eid acc y) (nodup_add_eid acc y h)

theorem dedup_first_nodup (l : List String) : (dedup_first l).Nodup :=
  nodup_foldl_add l [] (by simp)

theorem foldl_add_eq_append (l : List String) :
    ∀ acc : List String, l.Nodup → (∀ x ∈ l, x ∉ acc) →
      l.foldl add_eid acc = acc ++ l := by
  induction l with
  | nil => simp
  | cons y ys ih =>
    intro acc hnd hdisj
    simp only [List.foldl_cons]
    have hy : y ∉ acc := hdisj y (by simp)
    have hadd : add_eid acc y = acc ++ [y] := by
      unfold add_eid
      rw [if_neg]
      simp [hy]
    rw [hadd, ih (acc ++ [y]) (List.Nodup.of_cons hnd)]
    · simp
    · intro x hx
      simp only [List.mem_append, List.mem_singleton, not_or]
      exact ⟨hdisj x (by simp [hx]), fun he => (List.nodup_cons.mp hnd).1 (he ▸ hx)⟩

theorem dedup_first_of_nodup (l : List String) (h : l.Nodup) :
    dedup_first l = l := by
  unfold dedup_first
  rw [foldl_add_eq_append l [] h (by simp)]
  simp

theorem collect_ids_eq (acc : List String) (e : Option EntityRef) :
    collect_ids acc e = (amended_ids e).foldl add_eid acc := by
  cases e with
  | none => rfl
  | some e0 =>
    cases e0 with
    | scalar s =>
      by_cases hs : s = "" <;> simp [collect_ids, amended_ids, hs]
    | listOf l =>
      by_cases hl : l.isEmpty = true
      · rw [List.isEmpty_iff] at hl
        simp [collect_ids, amended_ids, hl]
      · have : ¬ l.isEmpty = true := hl
        simp [collect_ids, amended_ids, this]

theorem lookup_graph {β : Type} (ks : List String) (f : String → β) (k : String) :
    (ks.map (fun x => (x, f x))).lookup k =
      if k ∈ ks then some (f k) else none := by
  induction ks with
  | nil => simp
  | cons x xs ih =>
    simp only [List.map_cons, List.lookup, List.mem_cons]
    by_cases hx : k = x
    · subst hx
      simp
    · have hb : (k == x) = false := by simp [hx]
      simp only [hb]
      rw [ih]
      by_cases hm : k ∈ xs <;> simp [hm, hx]

theorem keys_snoc (acts : List Action) (a : Action) :
    keys_in_order (acts ++ [a]) = add_eid (keys_in_order acts) (action_key a) := by
  unfold keys_in_order dedup_first
  rw [List.map_append, List.foldl_append]
  rfl

theorem members_snoc (acts : List Action) (a : Action) (k : String) :
    (acts ++ [a]).filter (fun b => action_key b = k) =
      acts.filter (fun b => action_key b = k) ++
        if action_key a = k then [a] else [] := by
  rw [List.filter_append]
  congr 1
  by_cases hak : action_key a = k <;> simp [hak]

theorem mem_keys_iff (acts : List Action) (k : String) :
    k ∈ keys_in_order acts ↔ k ∈ acts.map action_key := by
  unfold keys_in_order dedup_first
  rw [mem_foldl_add]
  simp

theorem members_ne_nil_of_mem_keys (acts : List Action) (k : String)
    (hk : k ∈ keys_in_order acts) :
    acts.filter (fun b => action_key b = k) ≠ [] := by
  rw [mem_keys_iff] at hk
  rcases List.mem_map.mp hk with ⟨a, ha, rfl⟩
  intro hnil
  rw [List.filter_eq_nil_iff] at hnil
  exact hnil a ha (by simp)

theorem members_eq_nil_of_not_mem_keys (acts : List Action) (k : String)
    (hk : k ∉ keys_in_order acts) :
    acts.filter (fun b => action_key b = k) = [] := by
  rw [mem_keys_iff] at hk
  rw [List.filter_eq_nil_iff]
  intro a ha
  simp only [decide_eq_true_eq]
  intro he
  exact hk (List.mem_map.mpr ⟨a, ha, he⟩)

theorem eids_snoc (ms : List Action) (a : Action) :
    dedup_first ((ms ++ [a]).flatMap (fun b => amended_ids b.entity_id)) =
      collect_ids (dedup_first (ms.flatMap (fun b => amended_ids b.entity_id)))
        a.entity_id := by
  unfold dedup_first
  rw [List.flatMap_append, List.foldl_append, collect_ids_eq]
  simp

theorem spec_group_snoc_hit (acts : List Action) (a : Action)
    (hk : action_key a ∈ keys_in_order acts) :
    spec_group amended_ids (action_key a) (acts ++ [a]) =
      { spec_group amended_ids (action_key a) acts with
          eids := collect_ids (spec_group amended_ids (action_key a) acts).eids
                    a.entity_id } := by
  obtain ⟨m, ms, hms⟩ :=
    List.exists_cons_of_ne_nil (members_ne_nil_of_mem_keys acts (action_key a) hk)
  unfold spec_group
  rw [members_snoc, hms]
  have he := eids_snoc (m :: ms) a
  simp only [List.cons_append, List.flatMap_cons, List.flatMap_append,
    List.flatMap_nil, List.append_nil, List.append_assoc] at he
  simp [he]

theorem spec_group_snoc_miss (acts : List Action) (a : Action) (k : String)
    (hne : action_key a ≠ k) :
    spec_group amended_ids k (acts ++ [a]) = spec_group amended_ids k acts := by
  unfold spec_group
  rw [members_snoc, if_neg hne, List.append_nil]

theorem spec_group_snoc_new (acts : List Action) (a : Action)
    (hk : action_key a ∉ keys_in_order acts) :
    spec_group amended_ids (action_key a) (acts ++ [a]) =
      ⟨a.domain, a.service, a.data, collect_ids [] a.entity_id⟩ := by
  unfold spec_group
  rw [members_snoc, members_eq_nil_of_not_mem_keys acts _ hk]
  have hc : collect_ids [] a.entity_id = dedup_first (amended_ids a.entity_id) := by
    rw [collect_ids_eq]
    rfl
  simp [hc]

theorem merge_step_spec (acts : List Action) (a : Action) :
    merge_step (spec_state amended_ids acts) a =
      spec_state amended_ids (acts ++ [a]) := by
  by_cases hk : action_key a ∈ keys_in_order acts
  · have hlook : (spec_state amended_ids acts).lookup (action_key a) =
        some (spec_group amended_ids (action_key a) acts) := by
      unfold spec_state
      rw [lookup_graph]
      simp [hk]
    unfold merge_step
    simp only [hlook, Option.isSome_some, if_true]
    have hkeys : keys_in_order (acts ++ [a]) = keys_in_order acts := by
      rw [keys_snoc]
      unfold add_eid
      rw [if_pos (by simpa using hk)]
    unfold spec_state
    rw [hkeys, List.map_map]
    apply List.map_congr_left
    intro k hkmem
    simp only [Function.comp_apply]
    by_cases hkk : k = action_key a
    · subst hkk
      rw [spec_group_snoc_hit acts a hk]
      simp
    · rw [if_neg hkk, spec_group_snoc_miss acts a k (fun he => hkk he.symm)]
  · have hlook : (spec_state amended_ids acts).lookup (action_key a) = none := by
      unfold spec_state
      rw [lookup_graph]
      simp [hk]
    unfold merge_step
    simp only [hlook, Option.isSome_none, Bool.false_eq_true, if_false]
    have hkeys : keys_in_order (acts ++ [a]) =
        keys_in_order acts ++ [action_key a] := by
      rw [keys_snoc]
      unfold add_eid
      rw [if_neg (by simpa using hk)]
    unfold spec_state
    rw [hkeys, List.map_append]
    congr 1
    · apply List.map_congr_left
      intro k hkmem
      have hne : action_key a ≠ k := by
        intro he
        exact hk (he ▸ hkmem)
      rw [spec_group_snoc_miss acts a k hne]
    · simp only [List.map_cons, List.map_nil]
      rw [spec_group_snoc_new acts a hk]

/-- The merge fold builds exactly the claim-described group accumulator
(with the code id-collection rule). -/
theorem merge_fold_spec (actions : List Action) :
    actions.foldl merge_step [] = spec_state amended_ids actions := by
  induction actions using List.reverseRecOn with
  | nil => rfl
  | append_singleton acts a ih =>
    rw [List.foldl_append]
    simp only [List.foldl_cons, List.foldl_nil]
    rw [ih, merge_step_spec]

theorem merge_actions_form (actions : List Action) :
    merge_actions actions =
      (keys_in_order actions).map
        (fun k => render_group (spec_group amended_ids k actions)) := by
  unfold merge_actions
  rw [merge_fold_spec]
  unfold spec_state
  rw [List.map_map]
  rfl

/-- C4 counterexample: an action with a present but empty scalar entity_id
contributes no id in the source (truthiness), so merge omits the field;
the claim as stated collects the scalar and emits it back. -/
theorem merge_actions_claim_cex :
    merge_actions [⟨"light", "turn_on", some (.scalar ""), []⟩] ≠
      merge_claimed [⟨"light", "turn_on", some (.scalar ""), []⟩] := by
  decide

/-- C4 (amended): merge_actions groups its input by
domain ++ "." ++ service ++ ":" ++ canonical JSON of data without the
entity_id key, emits one action per group in first-occurrence order with
the first member's fields, collects the members' target ids deduplicated
in first-seen order — a truthy (non-empty) scalar contributing its id, a
list contributing its elements, a falsy entity_id contributing nothing —
and renders a single id as a scalar, several as a list, none by omitting
the field. -/
theorem merge_actions_characterization (actions : List Action) :
    merge_actions actions = merge_amended actions := by
  rw [merge_actions_form]
  rfl

theorem filter_key_singleton (acts : List Action)
    (hnd : (acts.map action_key).Nodup) (a : Action) (ha : a ∈ acts) :
    acts.filter (fun b => action_key b = action_key a) = [a] := by
  induction acts with
  | nil => cases ha
  | cons x xs ih =>
    simp only [List.map_cons, List.nodup_cons] at hnd
    rcases List.mem_cons.mp ha with rfl | ha2
    · simp only [List.filter_cons]
      rw [if_pos (by simp)]
      have hrest : xs.filter (fun b => action_key b = action_key a) = [] := by
        rw [List.filter_eq_nil_iff]
        intro b hb
        simp only [decide_eq_true_eq]
        intro he
        exact hnd.1 (he ▸ List.mem_map.mpr ⟨b, hb, rfl⟩)
      simp [hrest]
    · have hxa : action_key x ≠ action_key a := by
        intro he
        exact hnd.1 (he ▸ List.mem_map.mpr ⟨a, ha2, rfl⟩)
      simp only [List.filter_cons]
      rw [if_neg (by simpa using hxa)]
      exact ih hnd.2 ha2

/-- When all merge keys are distinct, every action forms its own group. -/
theorem merge_of_nodup_keys (acts : List Action)
    (hnd : (acts.map action_key).Nodup) :
    merge_actions acts = acts.map (fun a =>
      ⟨a.domain, a.service, render_eids (collect_ids [] a.entity_id), a.data⟩) := by
  rw [merge_actions_form]
  unfold keys_in_order
  rw [dedup_first_of_nodup _ hnd, List.map_map]
  apply List.map_congr_left
  intro a ha
  simp only [Function.comp_apply]
  unfold spec_group
  rw [filter_key_singleton acts hnd a ha]
  have hc : collect_ids [] a.entity_id = dedup_first (amended_ids a.entity_id) := by
    rw [collect_ids_eq]
    rfl
  simp [render_group, hc]

theorem action_key_render_spec_group (acts : List Action) (k : String)
    (hk : k ∈ keys_in_order acts) :
    action_key (render_group (spec_group amended_ids k acts)) = k := by
  obtain ⟨m, ms, hms⟩ :=
    List.exists_cons_of_ne_nil (members_ne_nil_of_mem_keys acts k hk)
  have hmk : action_key m = k := by
    have hmem : m ∈ acts.filter (fun b => action_key b = k) := by
      rw [hms]
      simp
    simpa using (List.mem_filter.mp hmem).2
  unfold spec_group
  rw [hms]
  simpa [action_key, render_group] using hmk

theorem merge_keys_eq (actions : List Action) :
    (merge_actions actions).map action_key = keys_in_order actions := by
  rw [merge_actions_form, List.map_map]
  have hpt : ∀ k ∈ keys_in_order actions,
      (action_key ∘ fun k => render_group (spec_group amended_ids k actions)) k =
        id k := by
    intro k hk
    simp only [Function.comp_apply, id]
    exact action_key_render_spec_group actions k hk
  rw [List.map_congr_left hpt, List.map_id]

theorem spec_group_eids_nodup (ids_of : Option EntityRef → List String)
    (k : String) (acts : List Action) :
    (spec_group ids_of k acts).eids.Nodup := by
  unfold spec_group
  split
  · simp
  · exact dedup_first_nodup _

theorem spec_group_eids_no_empty (k : String) (acts : List Action)
    (H : ∀ a ∈ acts, ∀ l, a.entity_id = some (.listOf l) → "" ∉ l) :
    "" ∉ (spec_group amended_ids k acts).eids := by
  unfold spec_group
  split
  · simp
  · rename_i m ms hms
    intro hmem
    unfold dedup_first at hmem
    rw [mem_foldl_add] at hmem
    rcases hmem with hmem | hmem
    · cases hmem
    · rcases List.mem_flatMap.mp hmem with ⟨b, hb, hbid⟩
      have hbacts : b ∈ acts := by
        have : b ∈ acts.filter (fun x => action_key x = k) := by
          rw [hms]
          exact hb
        exact (List.mem_filter.mp this).1
      rcases heid : b.entity_id with _ | e0
      · rw [heid] at hbid
        simp [amended_ids] at hbid
      · cases e0 with
        | scalar s =>
          rw [heid] at hbid
          by_cases hs : s = "" <;> simp [amended_ids, hs] at hbid
          exact hs hbid.symm
        | listOf l =>
          rw [heid] at hbid
          simp only [amended_ids] at hbid
          exact H b hbacts l heid hbid

theorem render_collect_render (eids : List String) (hnd : eids.Nodup)
    (hne : "" ∉ eids) :
    render_eids (collect_ids [] (render_eids eids)) = render_eids eids := by
  match eids with
  | [] => rfl
  | [e] =>
    have he : e ≠ "" := by
      intro h
      exact hne (by simp [h])
    simp [render_eids, collect_ids, add_eid, he]
  | e1 :: e2 :: es =>
    have hfold : (e1 :: e2 :: es).foldl add_eid [] = e1 :: e2 :: es := by
      have := foldl_add_eq_append (e1 :: e2 :: es) [] hnd (by simp)
      simpa using this
    simp only [render_eids, collect_ids, List.isEmpty_cons, Bool.false_eq_true,
      if_false, hfold]

/-- C7 counterexample: an entity_id list holding one empty id is collected
on the first merge (the list is truthy) and rendered as a scalar "", which
the second merge then skips (a falsy scalar), so the entity_id field
vanishes and the result changes. -/
theorem merge_idempotent_cex :
    merge_actions (merge_actions [⟨"light", "turn_on", some (.listOf [""]), []⟩]) ≠
      merge_actions [⟨"light", "turn_on", some (.listOf [""]), []⟩] := by
  decide

/-- C7 (amended): merge_actions is idempotent on every action list in
which no entity_id list contains an empty id: merging twice equals merging
once. -/
theorem merge_actions_idempotent (actions : List Action)
    (h : ∀ a ∈ actions, ∀ l, a.entity_id = some (.listOf l) → "" ∉ l) :
    merge_actions (merge_actions actions) = merge_actions actions := by
  have hnd : ((merge_actions actions).map action_key).Nodup := by
    rw [merge_keys_eq]
    exact dedup_first_nodup _
  rw [merge_of_nodup_keys _ hnd]
  have hpt : ∀ o ∈ merge_actions actions,
      (⟨o.domain, o.service, render_eids (collect_ids [] o.entity_id), o.data⟩ :
        Action) = id o := by
    intro o ho
    rw [merge_actions_form] at ho
    rcases List.mem_map.mp ho with ⟨k, hkmem, rfl⟩
    have hrr := render_collect_render (spec_group amended_ids k actions).eids
      (spec_group_eids_nodup amended_ids k actions)
      (spec_group_eids_no_empty k actions h)
    simp only [render_group, id]
    rw [hrr]
  calc (merge_actions actions).map (fun a =>
        (⟨a.domain, a.service, render_eids (collect_ids [] a.entity_id), a.data⟩ :
          Action))
      = (merge_actions actions).map id := List.map_congr_left hpt
    _ = merge_actions actions := List.map_id _

/-- C7 witness: two same-key actions with proper ids merge to one action,
and the amended idempotence law applies to them. -/
theorem merge_actions_idempotent_witness :
    merge_actions (merge_actions
        [⟨"light", "turn_off", some (.scalar "light.a"), []⟩,
         ⟨"light", "turn_off", some (.listOf ["light.b", "light.c"]), []⟩]) =
      merge_actions
        [⟨"light", "turn_off", some (.scalar "light.a"), []⟩,
         ⟨"light", "turn_off", some (.listOf ["light.b", "light.c"]), []⟩] :=
  merge_actions_idempotent
    [⟨"light", "turn_off", some (.scalar "light.a"), []⟩,
     ⟨"light", "turn_off", some (.listOf ["light.b", "light.c"]), []⟩]
    (by
      intro a ha l heq
      fin_cases ha
      · simp at heq
      · simp only [Option.some.injEq, EntityRef.listOf.injEq] at heq
        subst heq
        decide)

end HA
